import Mathlib

/-!
Shallow embedding of `galton.py` (a LEGO Spike Prime Galton-board program) and
proofs about it.  The program has two halves: a simulation half (`bern`,
`run_one_simulation`, and an inline per-bin aggregation over `n_sim = 10`
trials) and a physical half (a while-loop over `B` balls that, for each motor
in the role's motor order, draws a Bernoulli outcome, computes a parity from
the row count, and moves the motor to `initial ± MOTOR_OPENING_DEGREES`
modulo 360, then waits 5 seconds and resets every motor to its recorded
initial position).  The underlying uniform random source is passed explicitly
as a stream `us : ℕ → ℚ` of values of `random.uniform(0,1)`; machine state
(the dictionary of bins, the trace of motor commands) is made explicit.
-/

/-- Probability constant `P = 0.1` of the source. -/
def P : ℚ := 1 / 10

/-- Motor speed constant `MOTOR_SPEED = 10` of the source. -/
def MOTOR_SPEED : ℤ := 10

/-- Opening angle constant `MOTOR_OPENING_DEGREES = 30` of the source. -/
def MOTOR_OPENING_DEGREES : ℤ := 30

/-- Motor order `TOP_MOTOR_ORDER` of the top hub. -/
def TOP_MOTOR_ORDER : List String := ["C", "E", "B", "D", "F"]

/-- Motor order `BOT_MOTOR_ORDER` of the other hub. -/
def BOT_MOTOR_ORDER : List String := ["A", "C", "E", "B", "D"]

/-- The function `bern` of the source: compare the next uniform draw `u` with
the probability `p` and return `1` if `u < p`, else `0`.  The source reads the
global `P` and calls `random.uniform(0,1)`; here both are explicit arguments. -/
def bern (p u : ℚ) : ℕ := if u < p then 1 else 0

/-- Landing bin of one ball: the inner `for level in range(N)` loop of
`run_one_simulation`, starting from `landing_bin = 0` and adding one `bern`
draw per level.  The ball's draws are `us start, …, us (start + N - 1)`. -/
def landingBin (p : ℚ) (us : ℕ → ℚ) (N start : ℕ) : ℕ :=
  (List.range N).foldl (fun acc level => acc + bern p (us (start + level))) 0

/-- One dictionary update `balls_in_bins[landing_bin] += 1` of the source. -/
def binStep (lb : ℕ) (bins : ℕ → ℕ) : ℕ → ℕ :=
  Function.update bins lb (bins lb + 1)

/-- The function `run_one_simulation` of the source.  The dictionary is
initialised with bins `0..N` at `0` (modelled as the constantly-zero function;
landing bins always lie in `0..N`, so the two models agree on the key range),
then each of the `B` balls increments the bin its draws select.  Ball `b`
consumes the uniform draws `us (b*N), …, us (b*N + N - 1)`. -/
def run_one_simulation (p : ℚ) (N B : ℕ) (us : ℕ → ℚ) : ℕ → ℕ :=
  (List.range B).foldl (fun bins ball => binStep (landingBin p us N (ball * N)) bins)
    (fun _ => 0)

/-- Each Bernoulli draw is at most one. -/
lemma bern_le_one (p u : ℚ) : bern p u ≤ 1 := by
  unfold bern; split <;> omega

/-- With probability `0` and a non-negative uniform value the draw is `0`. -/
lemma bern_zero (u : ℚ) (hu : 0 ≤ u) : bern 0 u = 0 := by
  unfold bern
  rw [if_neg (not_lt.mpr hu)]

/-- With probability `1` and a uniform value below `1` the draw is `1`. -/
lemma bern_one (u : ℚ) (hu : u < 1) : bern 1 u = 1 := by
  unfold bern
  rw [if_pos hu]

/-- Folding `acc + f i` over a list grows the accumulator by at most the list
length when every `f i` is at most one. -/
lemma foldl_add_le (L : List ℕ) (f : ℕ → ℕ) (hf : ∀ i, f i ≤ 1) (a : ℕ) :
    L.foldl (fun acc i => acc + f i) a ≤ a + L.length := by
  induction L generalizing a with
  | nil => simp
  | cons x xs ih =>
      simp only [List.foldl_cons, List.length_cons]
      have h1 := ih (a + f x)
      have h2 := hf x
      omega

/-- Folding `acc + f i` over a list where every `f i` equals a constant `c`. -/
lemma foldl_add_const (L : List ℕ) (f : ℕ → ℕ) (c : ℕ) (hf : ∀ i ∈ L, f i = c) (a : ℕ) :
    L.foldl (fun acc i => acc + f i) a = a + c * L.length := by
  induction L generalizing a with
  | nil => simp
  | cons x xs ih =>
      simp only [List.foldl_cons, List.length_cons]
      rw [hf x (List.mem_cons_self x xs), ih (fun i hi => hf i (List.mem_cons_of_mem x hi))]
      ring

/-- Folding `acc + f i` only depends on `f` at the list's members. -/
lemma foldl_add_congr (L : List ℕ) (f g : ℕ → ℕ) (h : ∀ i ∈ L, f i = g i) (a : ℕ) :
    L.foldl (fun acc i => acc + f i) a = L.foldl (fun acc i => acc + g i) a := by
  induction L generalizing a with
  | nil => rfl
  | cons x xs ih =>
      simp only [List.foldl_cons]
      rw [h x (List.mem_cons_self x xs)]
      exact ih (fun i hi => h i (List.mem_cons_of_mem x hi)) _

/-- A landing bin never exceeds the number of levels. -/
lemma landingBin_le (p : ℚ) (us : ℕ → ℚ) (N start : ℕ) :
    landingBin p us N start ≤ N := by
  unfold landingBin
  have h := foldl_add_le (List.range N) (fun level => bern p (us (start + level)))
    (fun _ => bern_le_one _ _) 0
  simpa using h

/-- With probability `0` and non-negative uniform values every ball lands in bin `0`. -/
lemma landingBin_p_zero (us : ℕ → ℚ) (N start : ℕ) (h : ∀ i, 0 ≤ us i) :
    landingBin 0 us N start = 0 := by
  unfold landingBin
  rw [foldl_add_const _ _ 0 (fun i _ => bern_zero _ (h _))]
  simp

/-- With probability `1` and uniform values below `1` every ball lands in bin `N`. -/
lemma landingBin_p_one (us : ℕ → ℚ) (N start : ℕ) (h : ∀ i, us i < 1) :
    landingBin 1 us N start = N := by
  unfold landingBin
  rw [foldl_add_const _ _ 1 (fun i _ => bern_one _ (h _))]
  simp

/-- Incrementing one in-range bin raises the total over bins `0..N` by one. -/
lemma sum_binStep (N j : ℕ) (hj : j ≤ N) (bins : ℕ → ℕ) :
    Finset.sum (Finset.range (N + 1)) (binStep j bins)
      = Finset.sum (Finset.range (N + 1)) bins + 1 := by
  have hmem : j ∈ Finset.range (N + 1) := Finset.mem_range.mpr (by omega)
  unfold binStep
  rw [Finset.sum_update_of_mem hmem, Finset.sum_eq_sum_diff_singleton_add hmem bins]
  omega

/-- Folding `binStep` over a list of balls whose landing bins are all in range
adds the list length to the total over bins `0..N`. -/
lemma sum_foldl_binStep (N : ℕ) (l : List ℕ) (f : ℕ → ℕ) (hf : ∀ b ∈ l, f b ≤ N)
    (bins : ℕ → ℕ) :
    Finset.sum (Finset.range (N + 1)) (l.foldl (fun bs b => binStep (f b) bs) bins)
      = Finset.sum (Finset.range (N + 1)) bins + l.length := by
  induction l generalizing bins with
  | nil => simp
  | cons x xs ih =>
      simp only [List.foldl_cons, List.length_cons]
      rw [ih (fun b hb => hf b (List.mem_cons_of_mem x hb)),
        sum_binStep N (f x) (hf x (List.mem_cons_self x xs))]
      omega

/-- Folding `binStep` when every ball of the list lands in the same bin `j`:
bin `j` gains the list length, all other bins are untouched. -/
lemma foldl_binStep_const (j : ℕ) (l : List ℕ) (f : ℕ → ℕ) (hf : ∀ b ∈ l, f b = j)
    (bins : ℕ → ℕ) (bin : ℕ) :
    (l.foldl (fun bs b => binStep (f b) bs) bins) bin
      = bins bin + (if bin = j then l.length else 0) := by
  induction l generalizing bins with
  | nil => simp
  | cons x xs ih =>
      simp only [List.foldl_cons, List.length_cons]
      rw [ih (fun b hb => hf b (List.mem_cons_of_mem x hb)),
        hf x (List.mem_cons_self x xs)]
      unfold binStep
      rw [Function.update_apply]
      split_ifs with hbin
      · subst hbin; omega
      · omega

/-- Folding `binStep` only depends on the landing-bin function at the balls
of the list. -/
lemma foldl_binStep_congr (l : List ℕ) (f g : ℕ → ℕ) (h : ∀ b ∈ l, f b = g b)
    (bins : ℕ → ℕ) :
    l.foldl (fun bs b => binStep (f b) bs) bins
      = l.foldl (fun bs b => binStep (g b) bs) bins := by
  induction l generalizing bins with
  | nil => rfl
  | cons x xs ih =>
      simp only [List.foldl_cons]
      rw [h x (List.mem_cons_self x xs)]
      exact ih (fun b hb => h b (List.mem_cons_of_mem x hb)) _

/-- C1: for every number of levels `N ≥ 0`, ball count `B > 0` and probability
`p`, the trial result of `run_one_simulation` maps each bin to a non-negative
count and the counts over bins `0..N` sum to exactly `B`: every ball is
counted in exactly one bin. -/
theorem trial_sum_eq_ball_count (p : ℚ) (N B : ℕ) (us : ℕ → ℚ) (hB : 0 < B) :
    (∀ bin : ℕ, 0 ≤ run_one_simulation p N B us bin) ∧
    Finset.sum (Finset.range (N + 1)) (run_one_simulation p N B us) = B := by
  refine ⟨fun bin => Nat.zero_le _, ?_⟩
  unfold run_one_simulation
  rw [sum_foldl_binStep N _ _ (fun b _ => landingBin_le p us N (b * N))]
  simp

/-- Witness for C1 at `p = 1`, `N = 1`, `B = 2`, constant-zero uniform stream:
both balls are counted. -/
theorem trial_sum_eq_ball_count_witness :
    0 < 2 ∧
    Finset.sum (Finset.range 2) (run_one_simulation 1 1 2 (fun _ => 0)) = 2 :=
  ⟨by omega, (trial_sum_eq_ball_count 1 1 2 (fun _ => 0) (by omega)).2⟩

/-- C2: the degenerate cases of a trial are exact when the uniform source
draws from `[0,1)`: with `p = 0` every ball lands in bin `0`; with `p = 1`
every ball lands in bin `N`; with `N = 0` every ball lands in bin `0` for any
`p`. -/
theorem trial_degenerate_exact (N B : ℕ) (us : ℕ → ℚ)
    (h : ∀ i, 0 ≤ us i ∧ us i < 1) :
    (∀ bin : ℕ, run_one_simulation 0 N B us bin = if bin = 0 then B else 0) ∧
    (∀ bin : ℕ, run_one_simulation 1 N B us bin = if bin = N then B else 0) ∧
    (∀ (p : ℚ) (bin : ℕ), run_one_simulation p 0 B us bin = if bin = 0 then B else 0) := by
  refine ⟨fun bin => ?_, fun bin => ?_, fun p bin => ?_⟩
  · unfold run_one_simulation
    rw [foldl_binStep_const 0 _ _ (fun b _ => landingBin_p_zero us N (b * N) (fun i => (h i).1))]
    simp
  · unfold run_one_simulation
    rw [foldl_binStep_const N _ _ (fun b _ => landingBin_p_one us N (b * N) (fun i => (h i).2))]
    simp
  · unfold run_one_simulation
    rw [foldl_binStep_const 0 (List.range B) (fun ball => landingBin p us 0 (ball * 0))
      (fun b _ => by simp [landingBin])]
    simp

/-- Witness for C2 at `N = 1`, `B = 2`, constant `1/2` uniform stream. -/
theorem trial_degenerate_exact_witness :
    run_one_simulation 0 1 2 (fun _ => 1 / 2) 0 = 2 := by
  have h := (trial_degenerate_exact 1 2 (fun _ => 1 / 2) (fun i => by norm_num)).1 0
  simpa using h

/-- C10: a trial is deterministic in its random stream: two runs of
`run_one_simulation` over the same `N` and `B` whose uniform sources agree on
the consumed draws (indices below `B * N`) return identical trial results. -/
theorem trial_deterministic (p : ℚ) (N B : ℕ) (us1 us2 : ℕ → ℚ)
    (h : ∀ i, i < B * N → us1 i = us2 i) :
    ∀ bin : ℕ, run_one_simulation p N B us1 bin = run_one_simulation p N B us2 bin := by
  intro bin
  unfold run_one_simulation
  rw [foldl_binStep_congr _ _ _ (fun b hb => ?_)]
  rw [List.mem_range] at hb
  unfold landingBin
  refine foldl_add_congr _ _ _ (fun level hl => ?_) 0
  rw [List.mem_range] at hl
  rw [h (b * N + level) (by nlinarith)]

/-- Witness for C10 at `p = 1`, `N = 1`, `B = 1` on two streams agreeing below
`B * N = 1`. -/
theorem trial_deterministic_witness :
    run_one_simulation 1 1 1 (fun _ => 0) 0
      = run_one_simulation 1 1 1 (fun i => if i < 1 then 0 else 1) 0 :=
  trial_deterministic 1 1 1 (fun _ => 0) (fun i => if i < 1 then 0 else 1)
    (fun i hi => by simp [hi]) 0

/-- One motor command `motor.run_to_position(target, direction="shortest path",
speed=MOTOR_SPEED)` of the source: motor id, target angle, speed, and whether
the `"shortest path"` pathing hint was passed. -/
structure ActuatorCommand where
  motorId : String
  target : ℤ
  speed : ℤ
  shortestPath : Bool
deriving DecidableEq

/-- Observable steps of the physical program: the top hub's ball-pump feed
(`motor.run_for_rotations(1)`), the other hub's blocking wait on the left
button, a motor command, and a timed wait (`wait_for_seconds`). -/
inductive Event where
  | feed : Event
  | waitTrigger : Event
  | move : ActuatorCommand → Event
  | settle : ℕ → Event
deriving DecidableEq

/-- Direction decision of the source, line 125:
`(right and not parity) or (not right and parity)` on the truthiness of the
numbers `right` (a `bern` result) and `parity`. -/
def goesRight (right parity : ℕ) : Bool :=
  (right != 0 && parity == 0) || (right == 0 && parity != 0)

/-- The `for motor_id in motor_order` actuation loop of one cycle.  `rc` is the
current `row_count` (incremented before use, starting from `0` at cycle
entry), `k` is the index of the next unconsumed uniform draw. -/
def actuationLoop (p : ℚ) (parity_start : ℕ) (init : String → ℤ) (us : ℕ → ℚ) :
    List String → ℕ → ℕ → List Event
  | [], _, _ => []
  | motor_id :: rest, rc, k =>
      let right := bern p (us k)
      let parity := (parity_start + (rc + 1)) % 2
      let motor_pos : ℤ :=
        if goesRight right parity then (init motor_id + MOTOR_OPENING_DEGREES) % 360
        else (init motor_id - MOTOR_OPENING_DEGREES) % 360
      Event.move ⟨motor_id, motor_pos, MOTOR_SPEED, true⟩
        :: actuationLoop p parity_start init us rest (rc + 1) (k + 1)

/-- The reset loop of one cycle: every motor is sent back to its recorded
initial position, with the same speed and `"shortest path"` hint. -/
def resetLoop (init : String → ℤ) : List String → List Event
  | [] => []
  | motor_id :: rest => Event.move ⟨motor_id, init motor_id, MOTOR_SPEED, true⟩
      :: resetLoop init rest

/-- The `while ball_count < B` loop of the source, by remaining ball count:
each iteration runs the actuation loop, waits five seconds, then runs the
reset loop; `k` is the index of the next unconsumed uniform draw. -/
def mainLoop (p : ℚ) (parity_start : ℕ) (init : String → ℤ) (us : ℕ → ℚ)
    (order : List String) : ℕ → ℕ → List Event
  | 0, _ => []
  | b + 1, k =>
      actuationLoop p parity_start init us order 0 k
        ++ Event.settle 5
        :: (resetLoop init order ++ mainLoop p parity_start init us order b (k + order.length))

/-- Controller role: the `MODE == "top"` hub is the primary (it pumps the
ball), every other hub is a secondary (it waits for the left button). -/
inductive Role where
  | primary : Role
  | secondary : Role
deriving DecidableEq

/-- Motor order selected by the role (source lines 93-98). -/
def motorOrder : Role → List String
  | .primary => TOP_MOTOR_ORDER
  | .secondary => BOT_MOTOR_ORDER

/-- Parity offset selected by the role (source lines 93-98). -/
def parityStart : Role → ℕ
  | .primary => 1
  | .secondary => 0

/-- The startup capture loop (source lines 100-103): each motor id of the
order is written into the `initial_positions` dictionary with the position
read from the driver.  The dictionary is modelled as a total function with
default `0` off the written keys. -/
def capturePositions (getPos : String → ℤ) : List String → (String → ℤ) → (String → ℤ)
  | [], m => m
  | motor_id :: rest, m =>
      capturePositions getPos rest (Function.update m motor_id (getPos motor_id))

/-- The recorded initial-position map of a run. -/
def initialPositions (r : Role) (getPos : String → ℤ) : String → ℤ :=
  capturePositions getPos (motorOrder r) (fun _ => 0)

/-- The one-shot synchronisation step before the first cycle: the primary
pumps a ball, a secondary blocks on the manual trigger. -/
def syncEvent : Role → Event
  | .primary => .feed
  | .secondary => .waitTrigger

/-- The whole physical run (source lines 89-135): capture the initial
positions, synchronise, then run `B` cycles of the main loop. -/
def physicalRun (r : Role) (p : ℚ) (B : ℕ) (us : ℕ → ℚ) (getPos : String → ℤ) :
    List Event :=
  syncEvent r
    :: mainLoop p (parityStart r) (initialPositions r getPos) us (motorOrder r) B 0

/-- Motor commands of a trace, in emission order. -/
def commandsOf (l : List Event) : List ActuatorCommand :=
  l.filterMap (fun e => match e with
    | .move c => some c
    | _ => none)

/-- Number of settle waits of a trace (one per completed cycle). -/
def countSettle (l : List Event) : ℕ :=
  l.countP (fun e => match e with
    | .settle _ => true
    | _ => false)

/-- Shifting the starting index of an enumeration by one. -/
lemma enumFrom_succ_eq_map {α : Type} (l : List α) (n : ℕ) :
    List.enumFrom (n + 1) l = (List.enumFrom n l).map (fun q => (q.1 + 1, q.2)) := by
  induction l generalizing n with
  | nil => rfl
  | cons a rest ih => simp only [List.enumFrom, List.map_cons, ih (n + 1)]

/-- Closed form of one cycle's motor commands, indexed by the position of the
motor in the order: the `i`-th command of the actuation loop (row count
`rc + i + 1`) consumes the draw `us (k + i)` and targets the initial position
plus or minus the opening angle modulo `360`. -/
def specMoves (p : ℚ) (ps : ℕ) (init : String → ℤ) (us : ℕ → ℚ)
    (order : List String) (k : ℕ) : List Event :=
  (List.enumFrom 0 order).map (fun ie =>
    Event.move ⟨ie.2,
      if goesRight (bern p (us (k + ie.1))) ((ps + ie.1 + 1) % 2)
      then (init ie.2 + MOTOR_OPENING_DEGREES) % 360
      else (init ie.2 - MOTOR_OPENING_DEGREES) % 360,
      MOTOR_SPEED, true⟩)

/-- The state-threaded actuation loop equals its closed indexed form. -/
lemma actuationLoop_eq_enumFrom (p : ℚ) (ps : ℕ) (init : String → ℤ) (us : ℕ → ℚ)
    (order : List String) (rc k : ℕ) :
    actuationLoop p ps init us order rc k =
      (List.enumFrom 0 order).map (fun ie =>
        Event.move ⟨ie.2,
          if goesRight (bern p (us (k + ie.1))) ((ps + rc + ie.1 + 1) % 2)
          then (init ie.2 + MOTOR_OPENING_DEGREES) % 360
          else (init ie.2 - MOTOR_OPENING_DEGREES) % 360,
          MOTOR_SPEED, true⟩) := by
  induction order generalizing rc k with
  | nil => rfl
  | cons a rest ih =>
      simp only [actuationLoop, List.enumFrom, List.map_cons]
      congr 1
      rw [ih (rc + 1) (k + 1), enumFrom_succ_eq_map, List.map_map]
      refine List.map_congr_left (fun ie _ => ?_)
      rcases ie with ⟨i, x⟩
      simp only [Function.comp_apply]
      have h1 : k + 1 + i = k + (i + 1) := by omega
      have h2 : ps + (rc + 1) + i + 1 = ps + rc + (i + 1) + 1 := by omega
      rw [h1, h2]

/-- The reset loop is a plain map over the motor order. -/
lemma resetLoop_eq_map (init : String → ℤ) (order : List String) :
    resetLoop init order
      = order.map (fun motor_id => Event.move ⟨motor_id, init motor_id, MOTOR_SPEED, true⟩) := by
  induction order with
  | nil => rfl
  | cons a rest ih => simp only [resetLoop, List.map_cons, ih]

/-- Specification of one physical cycle, following the spec's description: one
move command per actuator of the ordered list (row count `i + 1` for the
`i`-th actuator), then a settle wait, then one reset command per actuator
returning it to its recorded initial position with the same speed and pathing
convention. -/
def specCycle (p : ℚ) (ps : ℕ) (init : String → ℤ) (us : ℕ → ℚ)
    (order : List String) (k : ℕ) : List Event :=
  specMoves p ps init us order k
    ++ Event.settle 5
    :: order.map (fun motor_id => Event.move ⟨motor_id, init motor_id, MOTOR_SPEED, true⟩)

/-- Specification of a whole run: `B` cycles in sequence, cycle `c` consuming
the draws starting at index `c * order.length`. -/
def specCycles (p : ℚ) (ps : ℕ) (init : String → ℤ) (us : ℕ → ℚ)
    (order : List String) : ℕ → ℕ → List Event
  | 0, _ => []
  | b + 1, k => specCycle p ps init us order k
      ++ specCycles p ps init us order b (k + order.length)

/-- The main loop of the source refines the per-cycle specification. -/
lemma mainLoop_eq_specCycles (p : ℚ) (ps : ℕ) (init : String → ℤ) (us : ℕ → ℚ)
    (order : List String) (B k : ℕ) :
    mainLoop p ps init us order B k = specCycles p ps init us order B k := by
  induction B generalizing k with
  | zero => rfl
  | succ b ih =>
      simp only [mainLoop, specCycles, specCycle, ih (k + order.length),
        List.append_assoc, List.cons_append]
      rw [actuationLoop_eq_enumFrom]
      unfold specMoves
      norm_num
      exact resetLoop_eq_map init order

/-- The actuation loop contains no settle event. -/
lemma countSettle_actuationLoop (p : ℚ) (ps : ℕ) (init : String → ℤ) (us : ℕ → ℚ)
    (order : List String) (rc k : ℕ) :
    countSettle (actuationLoop p ps init us order rc k) = 0 := by
  induction order generalizing rc k with
  | nil => rfl
  | cons a rest ih =>
      simp only [actuationLoop, countSettle, List.countP_cons] at ih ⊢
      simp [ih]

/-- The reset loop contains no settle event. -/
lemma countSettle_resetLoop (init : String → ℤ) (order : List String) :
    countSettle (resetLoop init order) = 0 := by
  induction order with
  | nil => rfl
  | cons a rest ih =>
      simp only [resetLoop, countSettle, List.countP_cons] at ih ⊢
      simp [ih]

/-- The main loop over `b` remaining balls waits exactly `b` settle periods:
one per cycle. -/
lemma countSettle_mainLoop (p : ℚ) (ps : ℕ) (init : String → ℤ) (us : ℕ → ℚ)
    (order : List String) (b k : ℕ) :
    countSettle (mainLoop p ps init us order b k) = b := by
  induction b generalizing k with
  | zero => rfl
  | succ n ih =>
      simp only [mainLoop, countSettle, List.countP_append, List.countP_cons]
      have h1 := countSettle_actuationLoop p ps init us order 0 k
      have h2 := countSettle_resetLoop init order
      have h3 := ih (k + order.length)
      simp only [countSettle] at h1 h2 h3
      simp [h1, h2, h3]

/-- Commands of a concatenation. -/
lemma commandsOf_append (l1 l2 : List Event) :
    commandsOf (l1 ++ l2) = commandsOf l1 ++ commandsOf l2 := by
  unfold commandsOf
  exact List.filterMap_append l1 l2 _

/-- Commands of a trace starting with a move. -/
lemma commandsOf_move_cons (c : ActuatorCommand) (l : List Event) :
    commandsOf (Event.move c :: l) = c :: commandsOf l := rfl

/-- Commands of a trace starting with a settle wait. -/
lemma commandsOf_settle_cons (n : ℕ) (l : List Event) :
    commandsOf (Event.settle n :: l) = commandsOf l := rfl

/-- Commands of a trace starting with the synchronisation step. -/
lemma commandsOf_syncEvent_cons (r : Role) (l : List Event) :
    commandsOf (syncEvent r :: l) = commandsOf l := by
  cases r <;> rfl

/-- Every command of the actuation loop belongs to a motor of the order,
targets the initial position plus or minus the opening angle modulo 360, and
carries the configured speed and the shortest-path hint. -/
lemma mem_commandsOf_actuationLoop (p : ℚ) (ps : ℕ) (init : String → ℤ) (us : ℕ → ℚ)
    (order : List String) (rc k : ℕ) (c : ActuatorCommand)
    (hc : c ∈ commandsOf (actuationLoop p ps init us order rc k)) :
    c.motorId ∈ order ∧
    (c.target = (init c.motorId + MOTOR_OPENING_DEGREES) % 360 ∨
     c.target = (init c.motorId - MOTOR_OPENING_DEGREES) % 360) ∧
    c.speed = MOTOR_SPEED ∧ c.shortestPath = true := by
  induction order generalizing rc k with
  | nil => simp [actuationLoop, commandsOf] at hc
  | cons a rest ih =>
      simp only [actuationLoop] at hc
      rw [commandsOf_move_cons] at hc
      rcases List.mem_cons.mp hc with hceq | htail
      · subst hceq
        refine ⟨List.mem_cons_self a rest, ?_, rfl, rfl⟩
        dsimp only
        split
        · exact Or.inl rfl
        · exact Or.inr rfl
      · obtain ⟨h1, h2, h3, h4⟩ := ih (rc + 1) (k + 1) htail
        exact ⟨List.mem_cons_of_mem a h1, h2, h3, h4⟩

/-- Every command of the reset loop belongs to a motor of the order, targets
exactly the recorded initial position, and carries the configured speed and
the shortest-path hint. -/
lemma mem_commandsOf_resetLoop (init : String → ℤ) (order : List String)
    (c : ActuatorCommand) (hc : c ∈ commandsOf (resetLoop init order)) :
    c.motorId ∈ order ∧ c.target = init c.motorId ∧
    c.speed = MOTOR_SPEED ∧ c.shortestPath = true := by
  induction order with
  | nil => simp [resetLoop, commandsOf] at hc
  | cons a rest ih =>
      simp only [resetLoop] at hc
      rw [commandsOf_move_cons] at hc
      rcases List.mem_cons.mp hc with hceq | htail
      · subst hceq
        exact ⟨List.mem_cons_self a rest, rfl, rfl, rfl⟩
      · obtain ⟨h1, h2, h3, h4⟩ := ih htail
        exact ⟨List.mem_cons_of_mem a h1, h2, h3, h4⟩

/-- Every command of the main loop belongs to a motor of the order, carries
the configured speed and the shortest-path hint, and targets either the
initial position shifted by the opening angle modulo 360 (actuation phase) or
the initial position itself (reset phase). -/
lemma mem_commandsOf_mainLoop (p : ℚ) (ps : ℕ) (init : String → ℤ) (us : ℕ → ℚ)
    (order : List String) (b k : ℕ) (c : ActuatorCommand)
    (hc : c ∈ commandsOf (mainLoop p ps init us order b k)) :
    c.motorId ∈ order ∧ c.speed = MOTOR_SPEED ∧ c.shortestPath = true ∧
    (c.target = (init c.motorId + MOTOR_OPENING_DEGREES) % 360 ∨
     c.target = (init c.motorId - MOTOR_OPENING_DEGREES) % 360 ∨
     c.target = init c.motorId) := by
  induction b generalizing k with
  | zero => simp [mainLoop, commandsOf] at hc
  | succ n ih =>
      simp only [mainLoop] at hc
      rw [commandsOf_append, commandsOf_settle_cons, commandsOf_append] at hc
      rw [List.mem_append, List.mem_append] at hc
      rcases hc with hA | hR | hM
      · obtain ⟨h1, h2, h3, h4⟩ := mem_commandsOf_actuationLoop p ps init us order 0 k c hA
        rcases h2 with h2 | h2
        · exact ⟨h1, h3, h4, Or.inl h2⟩
        · exact ⟨h1, h3, h4, Or.inr (Or.inl h2)⟩
      · obtain ⟨h1, h2, h3, h4⟩ := mem_commandsOf_resetLoop init order c hR
        exact ⟨h1, h3, h4, Or.inr (Or.inr h2)⟩
      · exact ih (k + order.length) hM

/-- Reading the captured dictionary: keys of the order hold the driver's
startup reading (the last write wins, and all writes for a key carry the same
value), other keys hold the base value. -/
lemma capturePositions_apply (getPos : String → ℤ) (order : List String)
    (m : String → ℤ) (mid : String) :
    capturePositions getPos order m mid = if mid ∈ order then getPos mid else m mid := by
  induction order generalizing m with
  | nil => simp [capturePositions]
  | cons a rest ih =>
      simp only [capturePositions]
      rw [ih]
      by_cases hr : mid ∈ rest
      · simp [hr]
      · by_cases ha : mid = a
        · subst ha
          simp [hr, Function.update_apply]
        · simp [hr, ha, Function.update_apply]

/-- Motor id constant used by concrete instances. -/
def motorC : String := "C"

/-- Motor id constant used by concrete instances. -/
def motorA : String := "A"

/-- C5: the physical sequencer executes exactly `B` cycles.  Its trace is the
one-shot synchronisation step followed by the `B`-cycle specification
`specCycles`: each cycle commands every actuator of the role's ordered list
in order, then waits the fixed settle duration, then emits one reset command
per actuator id returning it to its recorded initial position with the same
speed and shortest-path convention; after the `B`-th cycle the trace ends, so
nothing further happens.  The settle count makes "exactly `B` cycles"
explicit. -/
theorem sequencer_cycle_structure (r : Role) (p : ℚ) (B : ℕ) (us : ℕ → ℚ)
    (getPos : String → ℤ) :
    physicalRun r p B us getPos
      = syncEvent r
        :: specCycles p (parityStart r) (initialPositions r getPos) us (motorOrder r) B 0 ∧
    countSettle (physicalRun r p B us getPos) = B := by
  constructor
  · unfold physicalRun
    rw [mainLoop_eq_specCycles]
  · show countSettle (syncEvent r :: mainLoop p (parityStart r) (initialPositions r getPos)
      us (motorOrder r) B 0) = B
    unfold countSettle
    rw [List.countP_cons]
    have h := countSettle_mainLoop p (parityStart r) (initialPositions r getPos) us
      (motorOrder r) B 0
    unfold countSettle at h
    rw [h]
    cases r <;> simp [syncEvent]

/-- C8: a secondary-role sequencer emits zero actuator commands before its
external trigger: its trace begins with the blocking trigger wait, and every
prefix of the trace containing a move command also contains the trigger wait,
so the first cycle's commands are emitted only after the trigger resolves.
Under the blocking semantics of `wait_until_pressed`, a trigger that never
fires means no later event of the trace — in particular no cycle — ever
occurs. -/
theorem secondary_waits_before_commands (p : ℚ) (B : ℕ) (us : ℕ → ℚ)
    (getPos : String → ℤ) :
    (physicalRun Role.secondary p B us getPos).head? = some Event.waitTrigger ∧
    ∀ (n : ℕ) (c : ActuatorCommand),
      Event.move c ∈ (physicalRun Role.secondary p B us getPos).take n →
      Event.waitTrigger ∈ (physicalRun Role.secondary p B us getPos).take n := by
  refine ⟨rfl, fun n c hc => ?_⟩
  cases n with
  | zero => simp at hc
  | succ m =>
      show Event.waitTrigger ∈ (Event.waitTrigger :: mainLoop p 0
        (initialPositions Role.secondary getPos) us BOT_MOTOR_ORDER B 0).take (m + 1)
      rw [List.take_succ_cons]
      exact List.mem_cons_self _ _

/-- Witness for C8: in a concrete secondary run the first motor command sits
inside the length-2 prefix, and so does the trigger wait. -/
theorem secondary_waits_before_commands_witness :
    Event.waitTrigger
      ∈ (physicalRun Role.secondary 1 1 (fun _ => 0) (fun _ => 100)).take 2 :=
  (secondary_waits_before_commands 1 1 (fun _ => 0) (fun _ => 100)).2 2
    ⟨motorA, 70, 10, true⟩ (by decide)

/-- C9: the initial-position map is written once at startup: after the
capture loop it holds exactly the driver's startup reading for every motor of
the role's order; every command of the run computes its target from that
recorded value (shifted by the opening angle modulo 360 for actuation moves,
the value itself for resets); and the trace depends on the driver's readings
only through the startup capture, so it is never refreshed: two drivers
agreeing on the order's motors at startup yield identical traces no matter
what they would report later. -/
theorem initial_positions_single_write (r : Role) (p : ℚ) (B : ℕ) (us : ℕ → ℚ)
    (getPos : String → ℤ) :
    (∀ motor_id ∈ motorOrder r, initialPositions r getPos motor_id = getPos motor_id) ∧
    (∀ c ∈ commandsOf (physicalRun r p B us getPos),
       c.target = (initialPositions r getPos c.motorId + MOTOR_OPENING_DEGREES) % 360 ∨
       c.target = (initialPositions r getPos c.motorId - MOTOR_OPENING_DEGREES) % 360 ∨
       c.target = initialPositions r getPos c.motorId) ∧
    (∀ getPos2 : String → ℤ,
       (∀ motor_id ∈ motorOrder r, getPos motor_id = getPos2 motor_id) →
       physicalRun r p B us getPos = physicalRun r p B us getPos2) := by
  refine ⟨fun motor_id hmid => ?_, fun c hc => ?_, fun getPos2 hag => ?_⟩
  · unfold initialPositions
    rw [capturePositions_apply]
    simp [hmid]
  · unfold physicalRun at hc
    rw [commandsOf_syncEvent_cons] at hc
    exact (mem_commandsOf_mainLoop p (parityStart r) (initialPositions r getPos) us
      (motorOrder r) B 0 c hc).2.2.2
  · have hmap : initialPositions r getPos = initialPositions r getPos2 := by
      funext mid
      unfold initialPositions
      rw [capturePositions_apply, capturePositions_apply]
      by_cases hmem : mid ∈ motorOrder r
      · simp [hmem, hag mid hmem]
      · simp [hmem]
    unfold physicalRun
    rw [hmap]

/-- Witness for C9: the captured map of a concrete primary run holds the
startup reading of motor C. -/
theorem initial_positions_single_write_witness :
    initialPositions Role.primary (fun _ => (100 : ℤ)) motorC = 100 :=
  (initial_positions_single_write Role.primary 1 1 (fun _ => 0) (fun _ => 100)).1
    motorC (by decide)

/-- C4: the direction decision of the physical loop.  The parity offset is 1
for the primary (top) role and 0 for the secondary role; the `i`-th actuator
of a cycle is processed with row count `i + 1` and parity
`(parity_start + (i + 1)) % 2`; and `goesRight` follows the truth table:
move right exactly when the draw is right and the parity is 0, or the draw is
left and the parity is 1. -/
theorem direction_truth_table :
    (parityStart Role.primary = 1 ∧ parityStart Role.secondary = 0) ∧
    (∀ right parity : ℕ,
      goesRight right parity = true
        ↔ ((right ≠ 0 ∧ parity = 0) ∨ (right = 0 ∧ parity ≠ 0))) ∧
    (∀ (p : ℚ) (ps : ℕ) (init : String → ℤ) (us : ℕ → ℚ) (order : List String)
        (k i : ℕ) (h : i < order.length),
      (actuationLoop p ps init us order 0 k).get? i
        = some (Event.move ⟨order.get ⟨i, h⟩,
            if goesRight (bern p (us (k + i))) ((ps + (i + 1)) % 2)
            then (init (order.get ⟨i, h⟩) + MOTOR_OPENING_DEGREES) % 360
            else (init (order.get ⟨i, h⟩) - MOTOR_OPENING_DEGREES) % 360,
            MOTOR_SPEED, true⟩)) := by
  refine ⟨⟨rfl, rfl⟩, fun right parity => ?_, ?_⟩
  · simp only [goesRight, Bool.or_eq_true, Bool.and_eq_true, bne_iff_ne, beq_iff_eq]
  · intro p ps init us order k i h
    rw [actuationLoop_eq_enumFrom, List.get?_map, List.get?_enumFrom, List.get?_eq_get h]
    simp
    have hps : ps + i + 1 = ps + (i + 1) := by omega
    rw [hps]

/-- Witness for C4: the first actuator of a concrete primary cycle (row count
1, parity 0, draw right) is commanded to the initial position plus the
opening angle. -/
theorem direction_truth_table_witness :
    (actuationLoop 1 1 (fun _ => (100 : ℤ)) (fun _ => 0) TOP_MOTOR_ORDER 0 0).get? 0
      = some (Event.move ⟨motorC, 130, 10, true⟩) := by
  have h := direction_truth_table.2.2 1 1 (fun _ => (100 : ℤ)) (fun _ => 0)
    TOP_MOTOR_ORDER 0 0 (by decide)
  rw [h]
  decide

/-- Modelled from the spec: "Every emitted ActuatorCommand target lies in
[0, 360) and differs from the actuator's initial position by exactly
`opening_degrees` (mod 360), in the shorter rotational direction" — the
per-command target property the claim asserts of every command of a run. -/
def specTargetProp (init : String → ℤ) (c : ActuatorCommand) : Prop :=
  0 ≤ c.target ∧ c.target < 360 ∧
  ((c.target - init c.motorId) % 360 = MOTOR_OPENING_DEGREES ∨
   (c.target - init c.motorId) % 360 = 360 - MOTOR_OPENING_DEGREES)

instance (init : String → ℤ) (c : ActuatorCommand) : Decidable (specTargetProp init c) :=
  inferInstanceAs (Decidable (0 ≤ c.target ∧ c.target < 360 ∧
    ((c.target - init c.motorId) % 360 = MOTOR_OPENING_DEGREES ∨
     (c.target - init c.motorId) % 360 = 360 - MOTOR_OPENING_DEGREES)))

/-- C3 fails on the code: in a concrete one-ball primary run whose driver
reports 100 for every motor, the reset phase emits a command whose target is
the initial position itself, so its difference from the initial position is
0, not the opening angle: not every emitted ActuatorCommand differs from the
recorded initial position by exactly the opening angle. -/
theorem actuator_target_counterexample :
    ¬ ∀ c ∈ commandsOf (physicalRun Role.primary 1 1 (fun _ => 0) (fun _ => 100)),
        specTargetProp (initialPositions Role.primary (fun _ => 100)) c := by
  decide

/-- Bounds of the captured initial positions, assuming the driver reports
angles in [0, 360). -/
lemma initialPositions_bounds (r : Role) (getPos : String → ℤ)
    (hPos : ∀ motor_id : String, 0 ≤ getPos motor_id ∧ getPos motor_id < 360)
    (mid : String) :
    0 ≤ initialPositions r getPos mid ∧ initialPositions r getPos mid < 360 := by
  unfold initialPositions
  rw [capturePositions_apply]
  split
  · exact hPos mid
  · omega

/-- C3 amended: when the driver reports startup angles in [0, 360), every
emitted command has a target in [0, 360) and the shortest-path hint, and
either satisfies the claimed property — the target differs from the recorded
initial position by exactly the opening angle modulo 360, in one of the two
rotational directions — or is a reset command targeting exactly the recorded
initial position (difference 0).  The claimed property holds of the actuation
moves; the reset commands are the exception the counterexample exhibits. -/
theorem actuator_target_amended (r : Role) (p : ℚ) (B : ℕ) (us : ℕ → ℚ)
    (getPos : String → ℤ)
    (hPos : ∀ motor_id : String, 0 ≤ getPos motor_id ∧ getPos motor_id < 360) :
    ∀ c ∈ commandsOf (physicalRun r p B us getPos),
      (0 ≤ c.target ∧ c.target < 360) ∧ c.shortestPath = true ∧
      (specTargetProp (initialPositions r getPos) c ∨
       c.target = initialPositions r getPos c.motorId) := by
  intro c hc
  unfold physicalRun at hc
  rw [commandsOf_syncEvent_cons] at hc
  obtain ⟨hmem, hspeed, hpath, htgt⟩ := mem_commandsOf_mainLoop p (parityStart r)
    (initialPositions r getPos) us (motorOrder r) B 0 c hc
  have hb := initialPositions_bounds r getPos hPos c.motorId
  unfold specTargetProp
  unfold MOTOR_OPENING_DEGREES at htgt ⊢
  rcases htgt with htgt | htgt | htgt
  · refine ⟨⟨?_, ?_⟩, hpath, Or.inl ⟨?_, ?_, Or.inl ?_⟩⟩ <;> rw [htgt] <;> omega
  · refine ⟨⟨?_, ?_⟩, hpath, Or.inl ⟨?_, ?_, Or.inr ?_⟩⟩ <;> rw [htgt] <;> omega
  · refine ⟨⟨?_, ?_⟩, hpath, Or.inr htgt⟩ <;> rw [htgt] <;> omega

/-- Witness for C3 amended: the first actuation command of a concrete primary
run (motor C, target 130 from initial position 100) satisfies the amended
property. -/
theorem actuator_target_amended_witness :
    (0 ≤ (130 : ℤ) ∧ (130 : ℤ) < 360) ∧
    (⟨motorC, 130, 10, true⟩ : ActuatorCommand).shortestPath = true ∧
    (specTargetProp (initialPositions Role.primary (fun _ => 100))
        ⟨motorC, 130, 10, true⟩ ∨
     (130 : ℤ) = initialPositions Role.primary (fun _ => 100) motorC) :=
  actuator_target_amended Role.primary 1 1 (fun _ => 0) (fun _ => 100)
    (fun motor_id => by norm_num) ⟨motorC, 130, 10, true⟩ (by decide)

/-- Result of aggregating one bin's trial counts.  The source computes
`mean = sum(l)/len(l)`, `maxval = max(l)`, `minval = min(l)` (lines 79-81);
on an empty list the division `sum(l)/len(l)` raises an unguarded
`ZeroDivisionError`, modelled by the error constructor. -/
inductive AggResult where
  | ok : ℚ → ℕ → ℕ → AggResult
  | zeroDivisionError : AggResult
deriving DecidableEq

/-- Per-bin aggregation of the source: mean as exact rational division of the
sum by the length, and Python's `max`/`min` of a nonempty list as folds over
the tail starting from the head. -/
def aggregateBin (counts : List ℕ) : AggResult :=
  match counts with
  | [] => .zeroDivisionError
  | c :: rest => .ok (((c :: rest).sum : ℚ) / (((c :: rest).length : ℕ) : ℚ))
      (rest.foldl max c) (rest.foldl min c)

/-- The per-bin trial list built by simulation mode (source lines 66-74):
`nSim` trials run in sequence, trial `t` consuming the uniform draws starting
at index `t * (B * N)`, and each trial's count for the bin is appended. -/
def trialsForBin (p : ℚ) (N B nSim : ℕ) (us : ℕ → ℚ) (bin : ℕ) : List ℕ :=
  (List.range nSim).map
    (fun t => run_one_simulation p N B (fun i => us (t * (B * N) + i)) bin)

/-- Aggregation of a nonempty trial list succeeds. -/
lemma aggregateBin_ok_of_ne_nil (counts : List ℕ) (h : counts ≠ []) :
    ∃ m mx mn, aggregateBin counts = AggResult.ok m mx mn := by
  match counts, h with
  | c :: rest, _ => exact ⟨_, _, _, rfl⟩

/-- C6 fails on the code: nothing checks for an empty trial set, and no
configuration-error path exists; aggregating an empty trial list reaches the
mean computation and fails there with the unguarded division-by-zero error
instead of being rejected beforehand. -/
theorem aggregation_empty_counterexample :
    aggregateBin [] = AggResult.zeroDivisionError := rfl

/-- C6 amended: the code performs no emptiness rejection.  Instead the
shipped simulation mode fixes the trial count at `n_sim = 10`, so every
per-bin trial list has length 10 and aggregation always succeeds; aggregation
of an empty trial list is never rejected first and fails with the unguarded
division-by-zero error. -/
theorem aggregation_shipped_trials (p : ℚ) (N B : ℕ) (us : ℕ → ℚ) (bin : ℕ) :
    (trialsForBin p N B 10 us bin).length = 10 ∧
    (∃ m mx mn, aggregateBin (trialsForBin p N B 10 us bin) = AggResult.ok m mx mn) ∧
    aggregateBin [] = AggResult.zeroDivisionError := by
  have hlen : (trialsForBin p N B 10 us bin).length = 10 := by
    unfold trialsForBin
    rw [List.length_map, List.length_range]
  refine ⟨hlen, aggregateBin_ok_of_ne_nil _ ?_, rfl⟩
  intro hnil
  rw [hnil] at hlen
  simp at hlen

/-- Modelled from the spec: "Precondition: 0.0 ≤ p ≤ 1.0 (configuration
error otherwise, detected once at startup, not per-draw)" — the startup
validation the spec describes.  It is missing from the source, which
contains no check of `P` anywhere. -/
def validatedProbability (p : ℚ) : Option ℚ :=
  if 0 ≤ p ∧ p ≤ 1 then some p else none

/-- C7 fails on the code: the out-of-range probability 2 would be rejected by
the spec's startup validation, but the source performs no check: the draw
simply evaluates (always right, every uniform value being below 2) and a full
three-ball simulation completes, so the run proceeds. -/
theorem probability_validation_counterexample :
    validatedProbability 2 = none ∧
    bern 2 0 = 1 ∧
    Finset.sum (Finset.range 2) (run_one_simulation 2 1 3 (fun _ => 0)) = 3 := by
  refine ⟨?_, ?_, by decide⟩
  · norm_num [validatedProbability]
  · norm_num [bern]

/-- C7 amended: the code never validates the probability: every rational
`p`, in range or not, yields a normal draw of 0 or 1 on every call and the
run proceeds; the shipped constant `P = 0.1` does satisfy the precondition
`0 ≤ P ≤ 1`. -/
theorem probability_never_validated :
    (0 ≤ P ∧ P ≤ 1) ∧ ∀ p u : ℚ, bern p u = 0 ∨ bern p u = 1 := by
  refine ⟨⟨by norm_num [P], by norm_num [P]⟩, fun p u => ?_⟩
  unfold bern
  split
  · exact Or.inr rfl
  · exact Or.inl rfl
